import Mathlib

/-!
Shallow embedding of the whitespace interpreter
(`src/whitespace/whitespace.py`) and proofs about it.

Conventions used throughout:
* a program symbol is one of the three significant whitespace characters,
  written `s`/`t`/`n` exactly as the source's `clean` intends to produce them;
* Python strings of cleaned code become `List Symb`; positions are `Nat`,
  except where the source manipulates the `-1` sentinel of `str.find`,
  which is kept as an `Int`;
* Python exceptions become an explicit `Err` value through `Except`;
  every distinct `raise` site (and every distinct builtin exception the
  source can trigger) gets its own constructor;
* the operand stack, call stack and heap of `run` are modelled with the
  top of a stack at the HEAD of a Lean list (the source keeps the top at
  the end of a Python list), and the heap as an association list whose
  most recent binding comes first.
-/

/-- The three symbols of the cleaned program alphabet: `s` = space,
`t` = tab, `n` = linefeed. -/
inductive Symb where
  | s
  | t
  | n
deriving DecidableEq, Repr

/-- Every failure the source can raise, one constructor per raise site or
builtin exception. -/
inductive Err where
  | typeFault        -- TypeError from str.maketrans given a non-dict
  | consumeEmpty     -- 'tried to consume from empty string'
  | maxEmpty         -- ValueError: max() arg is an empty sequence
  | noMatch          -- 'no match found in ...'
  | emptyNumber      -- 'empty number (only terminal, no sign)'
  | keyFault         -- KeyError from the sign lookup dict
  | indexFault       -- IndexError from indexing past the end
  | valueError       -- ValueError from int() on a bad literal
  | payloadMismatch  -- 'payload mismatch' in Command.__init__
  | duplicateLabel   -- 'tried to redefine label'
  | endOfProgram     -- 'unexpected end of program'
  | undefinedLabel   -- 'tried to jump to nonexistent label'
  | popEmpty         -- IndexError: pop from empty list
  | dupTooFar        -- 'tried to duplicate too far down the stack'
  | dupEmpty         -- 'tried to dup empty stack'
  | swapTooFew       -- 'tried to swap less than 2 elements'
  | discardEmpty     -- 'tried to discard from empty stack'
  | zeroDivision     -- ZeroDivisionError
  | badHeapAddress   -- 'bad heap address'
  | chrRange         -- ValueError from chr() out of range
  | eofFault         -- 'unexpected EOF on input'
  | leftoverMark     -- 'leftover mark'
deriving DecidableEq, Repr

/-- The instruction catalog, one constructor per member of the source's
`Instruction` enum, in source order. -/
inductive Instruction where
  | push | dup_n | discard_n | dup | swap | discard
  | add | sub | mul | div | mod
  | store | get
  | out_c | out_n | in_c | in_n
  | mark | call | jump | jz | jlz | ret | exit
deriving DecidableEq, Repr

namespace Instruction

/-- The code of each IMP (`IMP.value` in the source): stack `s`,
arithmetic `ts`, heap `tt`, io `tn`, flow `n`. Inlined per instruction
here, giving each instruction's full `value` = IMP code ++ own code. -/
def value : Instruction → List Symb
  | .push => [.s, .s]
  | .dup_n => [.s, .t, .s]
  | .discard_n => [.s, .t, .n]
  | .dup => [.s, .n, .s]
  | .swap => [.s, .n, .t]
  | .discard => [.s, .n, .n]
  | .add => [.t, .s, .s, .s]
  | .sub => [.t, .s, .s, .t]
  | .mul => [.t, .s, .s, .n]
  | .div => [.t, .s, .t, .s]
  | .mod => [.t, .s, .t, .t]
  | .store => [.t, .t, .s]
  | .get => [.t, .t, .t]
  | .out_c => [.t, .n, .s, .s]
  | .out_n => [.t, .n, .s, .t]
  | .in_c => [.t, .n, .t, .s]
  | .in_n => [.t, .n, .t, .t]
  | .mark => [.n, .s, .s]
  | .call => [.n, .s, .t]
  | .jump => [.n, .s, .n]
  | .jz => [.n, .t, .s]
  | .jlz => [.n, .t, .t]
  | .ret => [.n, .t, .n]
  | .exit => [.n, .n, .n]

/-- Whether the instruction code carried the `_n` suffix (requires a
number argument). -/
def takes_number : Instruction → Bool
  | .push | .dup_n | .discard_n => true
  | _ => false

/-- Whether the instruction code carried the `_l` suffix (requires a
label argument). -/
def takes_label : Instruction → Bool
  | .mark | .call | .jump | .jz | .jlz => true
  | _ => false

end Instruction

/-- The 24 catalog members in source declaration order, as iterated by
`for ins in Instruction`. -/
def catalogList : List Instruction :=
  [.push, .dup_n, .discard_n, .dup, .swap, .discard,
   .add, .sub, .mul, .div, .mod,
   .store, .get,
   .out_c, .out_n, .in_c, .in_n,
   .mark, .call, .jump, .jz, .jlz, .ret, .exit]

/-- The catalog's codes, `[ins.value for ins in Instruction]`. -/
def catalogCodes : List (List Symb) :=
  catalogList.map Instruction.value

/-- The reverse lookup `Instruction(code)` performed by `parse`. -/
def instrOfCode (c : List Symb) : Option Instruction :=
  catalogList.find? (fun i => i.value == c)

/-- `clean` exactly as the source executes it. The source builds its
translation table with `str.maketrans(zip(' \t\n', 'stn'))`, but
`str.maketrans` given a single argument requires a `dict` and raises
`TypeError: if you give only one argument to maketrans it must be a dict`
on a `zip` object — before any character of the input is examined. So
every call of `clean`, on any input whatsoever, raises `TypeError`. -/
def clean (_text : List Char) : Except Err (List Symb) :=
  .error .typeFault

/-- Modelled from the spec: the Normalizer `clean`'s documented intent
("strips everything but space/tab/newline, replaces them with s/t/n"),
i.e. the translation the table `zip(' \t\n', 'stn')` was meant to build:
keep SPACE/TAB/LF as `s`/`t`/`n`, drop every other character. -/
def cleanIntended (text : List Char) : List Symb :=
  text.filterMap fun c =>
    if c = ' ' then some Symb.s
    else if c = '\t' then some Symb.t
    else if c = '\n' then some Symb.n
    else none

/-- Index of the first occurrence of `c`, or `none`; helper for
`strFind`. -/
def findSym (c : Symb) : List Symb → Option ℕ
  | [] => none
  | x :: xs => if x = c then some 0 else (findSym c xs).map (· + 1)

/-- Python's `code.find(c, start)`: the least index `≥ start` holding
`c`, or `-1` when there is none. -/
def strFind (code : List Symb) (c : Symb) (start : ℕ) : ℤ :=
  match findSym c (code.drop start) with
  | some i => ((start + i : ℕ) : ℤ)
  | none => -1

/-- Python's slice `code[a:b]` for `a : ℕ` and a possibly negative end
index `b` (a negative `b` counts from the end; out-of-range ends are
clamped). -/
def pySlice (code : List Symb) (a : ℕ) (b : ℤ) : List Symb :=
  let e : ℕ := if b < 0 then ((code.length : ℤ) + b).toNat else b.toNat
  (code.take e).drop a

/-- Python's `int(bits, 2)` after the source's `st → 01` translation:
fails on the empty string and on any character that is not a binary
digit (an untranslated `n` stays `n`). -/
def int2 (bits : List Symb) : Except Err ℕ :=
  if bits = [] then .error .valueError
  else if bits.any (fun b => b = Symb.n) then .error .valueError
  else .ok (bits.foldl (fun acc b => 2 * acc + if b = Symb.t then 1 else 0) 0)

/-- Largest length among the choices, `max(len(x) for x in choices)`;
`none` when `choices` is empty (Python's `max` raises there). -/
def maxLenOf : List (List Symb) → Option ℕ
  | [] => none
  | c :: cs => some (cs.foldl (fun m x => max m x.length) c.length)

/-- The loop `for pos in range ...` of `consume_any`: starting at `pos`
with `fuel` iterations left, the first length whose prefix of `codePart`
is among `choices`. -/
def firstMatch (codePart : List Symb) (choices : List (List Symb)) (pos : ℕ) : ℕ → Option ℕ
  | 0 => none
  | fuel + 1 =>
    if codePart.take pos ∈ choices then some pos
    else firstMatch codePart choices (pos + 1) fuel

/-- `consume_any(code, choices, offset)`: error if `offset` is at or past
the end; otherwise try prefix lengths `0, 1, ..., max_len` of
`code[offset:]` and return the first that is a member of `choices`,
together with the position after it. -/
def consume_any (code : List Symb) (choices : List (List Symb)) (offset : ℕ) :
    Except Err (List Symb × ℕ) :=
  if code.length ≤ offset then .error .consumeEmpty
  else
    match maxLenOf choices with
    | none => .error .maxEmpty
    | some maxLen =>
      let codePart := code.drop offset
      match firstMatch codePart choices 0 (maxLen + 1) with
      | some pos => .ok (codePart.take pos, offset + pos)
      | none => .error .noMatch

/-- `consume_number(code, offset)`: find the terminating `n` (with
Python's `-1` sentinel when absent), special-case an immediate terminal
(error) and a sign followed by the terminal (zero), otherwise read the
sign from `code[offset]` and the magnitude bits from the slice up to
`terminal`. -/
def consume_number (code : List Symb) (offset : ℕ) : Except Err (ℤ × ℕ) :=
  let terminal : ℤ := strFind code Symb.n offset
  if terminal = (offset : ℤ) then .error .emptyNumber
  else if terminal = (offset : ℤ) + 1 then .ok (0, (terminal + 1).toNat)
  else
    match code.get? offset with
    | none => .error .indexFault
    | some Symb.n => .error .keyFault
    | some sym =>
      let sign : ℤ := if sym = Symb.t then -1 else 1
      match int2 (pySlice code (offset + 1) terminal) with
      | .error e => .error e
      | .ok v => .ok (sign * v, (terminal + 1).toNat)

/-- `consume_label(code, offset)`: the slice up to the terminating `n`
(with Python's `-1` sentinel when absent) and the position after the
terminal. -/
def consume_label (code : List Symb) (offset : ℕ) : List Symb × ℕ :=
  let terminal : ℤ := strFind code Symb.n offset
  (pySlice code offset terminal, (terminal + 1).toNat)

/-- A decoded instruction occurrence (`Command` in the source): the
instruction plus its optional number and label payloads. -/
structure Command where
  ins : Instruction
  number : Option ℤ
  label : Option (List Symb)
deriving DecidableEq, Repr

/-- `Command.__init__`'s payload validation: the number payload is
present iff the instruction takes a number, likewise for the label. -/
def mkCommand (ins : Instruction) (number : Option ℤ) (label : Option (List Symb)) :
    Except Err Command :=
  if ins.takes_number ≠ number.isSome ∨ ins.takes_label ≠ label.isSome then
    .error .payloadMismatch
  else .ok ⟨ins, number, label⟩

/-- The static part of the source's `Program` object: the executable
command sequence and the label table (a Python dict, modelled as an
association list in insertion order). The label table's keys are the
raw `cmd.label` payloads, hence `Option (List Symb)`. The source also
stores `pc` and `call_stack` on the same object; those are the mutable
machine state and live in `VMState` here. -/
structure Program where
  commands : List Command
  labels : List (Option (List Symb) × ℕ)
deriving DecidableEq, Repr

namespace Program

/-- `Program.add_command`: a `mark` is not appended but registered in
the label table at the index `len(self.commands)`; registering a label
twice is an error; every other command is appended. -/
def add_command (p : Program) (cmd : Command) : Except Err Program :=
  if cmd.ins = Instruction.mark then
    match p.labels.lookup cmd.label with
    | some _ => .error .duplicateLabel
    | none => .ok { p with labels := p.labels ++ [(cmd.label, p.commands.length)] }
  else .ok { p with commands := p.commands ++ [cmd] }

/-- `Program.get_command`: the command at `pc`, or 'unexpected end of
program' when `pc` is at or past the end. -/
def get_command (p : Program) (pc : ℕ) : Except Err Command :=
  if h : pc < p.commands.length then .ok (p.commands.get ⟨pc, h⟩)
  else .error .endOfProgram

/-- `Program.jump`: the index bound to `label`, or 'tried to jump to
nonexistent label'. -/
def jump (p : Program) (label : Option (List Symb)) : Except Err ℕ :=
  match p.labels.lookup label with
  | none => .error .undefinedLabel
  | some k => .ok k

end Program

/-- The loop body of `parse`, with explicit fuel standing in for the
`while pos < len(code)` loop (the source loop can fail to terminate when
the `str.find` sentinel bug moves `pos` backwards; `.ok none` models
that no result is ever produced). Each iteration decodes one
instruction, decodes its payload if any, builds the `Command` and hands
it to `add_command`. -/
def parseAux (code : List Symb) : ℕ → ℕ → Program → Except Err (Option Program)
  | 0, _, _ => .ok none
  | fuel + 1, pos, prog =>
    if code.length ≤ pos then .ok (some prog)
    else
      match consume_any code catalogCodes pos with
      | .error e => .error e
      | .ok (c, pos₁) =>
        match instrOfCode c with
        | none => .error .valueError
        | some ins =>
          if ins.takes_number then
            match consume_number code pos₁ with
            | .error e => .error e
            | .ok (num, pos₂) =>
              match mkCommand ins (some num) none with
              | .error e => .error e
              | .ok cmd =>
                match prog.add_command cmd with
                | .error e => .error e
                | .ok prog' => parseAux code fuel pos₂ prog'
          else if ins.takes_label then
            match consume_label code pos₁ with
            | (lab, pos₂) =>
              match mkCommand ins none (some lab) with
              | .error e => .error e
              | .ok cmd =>
                match prog.add_command cmd with
                | .error e => .error e
                | .ok prog' => parseAux code fuel pos₂ prog'
          else
            match mkCommand ins none none with
            | .error e => .error e
            | .ok cmd =>
              match prog.add_command cmd with
              | .error e => .error e
              | .ok prog' => parseAux code fuel pos₁ prog'

/-- `parse`: run the loop from position 0 on an empty `Program`. Any
iteration that makes progress consumes at least one symbol, so
`code.length + 1` fuel only runs out if the loop is stuck revisiting
positions (which the source would spin on forever). -/
def parse (code : List Symb) : Except Err (Option Program) :=
  parseAux code (code.length + 1) 0 ⟨[], []⟩

/-- The machine state mutated by `run` (plus the `pc`/`call_stack` the
source keeps on the `Program` object): program counter, operand stack
(top at the head), call stack (top at the head), heap (most recent
binding first), the remaining input as a list of character codes, and
the character codes written so far. -/
structure VMState where
  pc : ℕ
  stack : List ℤ
  callStack : List ℕ
  heap : List (ℤ × ℤ)
  inp : List ℤ
  out : List ℤ
deriving DecidableEq, Repr

/-- One fetch-execute step either faults, halts (the `exit`
instruction's `return`), or continues in a new state. -/
inductive StepRes where
  | halt (st : VMState)
  | cont (st : VMState)
deriving DecidableEq, Repr

/-- The `discard_n` effect `del stack[-n-1:-1]` with
`n = number if number > 0 else len(stack)`: with the top at the head of
the list, the slice deletion removes the `n` elements directly below
the top (all of them, when fewer than `n` remain), and on an empty
stack it deletes nothing. -/
def pyDiscard (number : ℤ) (stack : List ℤ) : List ℤ :=
  match stack with
  | [] => []
  | top :: rest =>
    let n : ℕ := if 0 < number then number.toNat else stack.length
    top :: rest.drop n

/-- The character codes of Python's `str(z)` for an integer `z`:
a minus sign for negatives followed by the decimal digits. -/
def intStrCodes (z : ℤ) : List ℤ :=
  if z < 0 then 45 :: (Nat.toDigits 10 (-z).toNat).map (fun c => (c.toNat : ℤ))
  else (Nat.toDigits 10 z.toNat).map (fun c => (c.toNat : ℤ))

/-- `inp.readline()`: the prefix up to and including the first linefeed
(code 10), or everything when there is none, together with the rest. -/
def readLine (inp : List ℤ) : List ℤ × List ℤ :=
  match inp with
  | [] => ([], [])
  | c :: rest =>
    if c = 10 then ([10], rest)
    else
      let (line, rest') := readLine rest
      (c :: line, rest')

/-- Python's `int(a)` on the text of a line: strip surrounding
whitespace, allow one optional sign, then at least one decimal digit
(digit-group underscores are not modelled). -/
def pyIntParse (line : List ℤ) : Option ℤ :=
  let isWs : ℤ → Bool := fun c => c = 9 ∨ c = 10 ∨ c = 11 ∨ c = 12 ∨ c = 13 ∨ c = 32
  let core := (line.dropWhile isWs).reverse.dropWhile isWs |>.reverse
  let (sign, digits) : ℤ × List ℤ :=
    match core with
    | 43 :: rest => (1, rest)
    | 45 :: rest => (-1, rest)
    | _ => (1, core)
  if digits = [] ∨ digits.any (fun c => c < 48 ∨ 57 < c) then none
  else some (sign * digits.foldl (fun acc c => 10 * acc + (c - 48)) 0)

/-- The big `if/elif` dispatch of `run`'s loop body, applied after the
unconditional `program.advance()`: `st.pc` is already the incremented
program counter, which is also the return address a `call` saves. -/
def execCmd (p : Program) (cmd : Command) (st : VMState) : Except Err StepRes :=
  match cmd.ins with
  | .push =>
    match cmd.number with
    | some k => .ok (.cont { st with stack := k :: st.stack })
    | none => .error .payloadMismatch
  | .dup_n =>
    match cmd.number with
    | none => .error .payloadMismatch
    | some num =>
      if (st.stack.length : ℤ) ≤ num then .error .dupTooFar
      else if num < 0 then .error .indexFault
      else
        match st.stack.get? num.toNat with
        | some v => .ok (.cont { st with stack := v :: st.stack })
        | none => .error .indexFault
  | .discard_n =>
    match cmd.number with
    | none => .error .payloadMismatch
    | some num => .ok (.cont { st with stack := pyDiscard num st.stack })
  | .dup =>
    match st.stack with
    | [] => .error .dupEmpty
    | a :: rest => .ok (.cont { st with stack := a :: a :: rest })
  | .swap =>
    match st.stack with
    | a :: b :: rest => .ok (.cont { st with stack := b :: a :: rest })
    | _ => .error .swapTooFew
  | .discard =>
    match st.stack with
    | [] => .error .discardEmpty
    | _ :: rest => .ok (.cont { st with stack := rest })
  | .add =>
    match st.stack with
    | a :: b :: rest => .ok (.cont { st with stack := (b + a) :: rest })
    | _ => .error .popEmpty
  | .sub =>
    match st.stack with
    | a :: b :: rest => .ok (.cont { st with stack := (b - a) :: rest })
    | _ => .error .popEmpty
  | .mul =>
    match st.stack with
    | a :: b :: rest => .ok (.cont { st with stack := (b * a) :: rest })
    | _ => .error .popEmpty
  | .div =>
    match st.stack with
    | a :: b :: rest =>
      if a = 0 then .error .zeroDivision
      else .ok (.cont { st with stack := Int.fdiv b a :: rest })
    | _ => .error .popEmpty
  | .mod =>
    match st.stack with
    | a :: b :: rest =>
      if a = 0 then .error .zeroDivision
      else .ok (.cont { st with stack := Int.fmod b a :: rest })
    | _ => .error .popEmpty
  | .store =>
    match st.stack with
    | a :: b :: rest => .ok (.cont { st with stack := rest, heap := (b, a) :: st.heap })
    | _ => .error .popEmpty
  | .get =>
    match st.stack with
    | [] => .error .popEmpty
    | a :: rest =>
      match st.heap.lookup a with
      | none => .error .badHeapAddress
      | some v => .ok (.cont { st with stack := v :: rest })
  | .out_c =>
    match st.stack with
    | [] => .error .popEmpty
    | a :: rest =>
      if a < 0 ∨ 0x110000 ≤ a then .error .chrRange
      else .ok (.cont { st with stack := rest, out := st.out ++ [a] })
  | .out_n =>
    match st.stack with
    | [] => .error .popEmpty
    | a :: rest => .ok (.cont { st with stack := rest, out := st.out ++ intStrCodes a })
  | .in_c =>
    match st.inp with
    | [] => .error .eofFault
    | c :: restIn =>
      match st.stack with
      | [] => .error .popEmpty
      | b :: rest =>
        .ok (.cont { st with stack := rest, inp := restIn, heap := (b, c) :: st.heap })
  | .in_n =>
    match readLine st.inp with
    | (line, restIn) =>
      if line = [] then .error .eofFault
      else
        match st.stack with
        | [] => .error .popEmpty
        | b :: rest =>
          match pyIntParse line with
          | none => .error .valueError
          | some v =>
            .ok (.cont { st with stack := rest, inp := restIn, heap := (b, v) :: st.heap })
  | .mark => .error .leftoverMark
  | .call =>
    match p.jump cmd.label with
    | .error e => .error e
    | .ok k => .ok (.cont { st with callStack := st.pc :: st.callStack, pc := k })
  | .ret =>
    match st.callStack with
    | [] => .error .popEmpty
    | k :: cs => .ok (.cont { st with pc := k, callStack := cs })
  | .jump =>
    match p.jump cmd.label with
    | .error e => .error e
    | .ok k => .ok (.cont { st with pc := k })
  | .jz =>
    match st.stack with
    | [] => .error .popEmpty
    | a :: rest =>
      if a = 0 then
        match p.jump cmd.label with
        | .error e => .error e
        | .ok k => .ok (.cont { st with stack := rest, pc := k })
      else .ok (.cont { st with stack := rest })
  | .jlz =>
    match st.stack with
    | [] => .error .popEmpty
    | a :: rest =>
      if a < 0 then
        match p.jump cmd.label with
        | .error e => .error e
        | .ok k => .ok (.cont { st with stack := rest, pc := k })
      else .ok (.cont { st with stack := rest })
  | .exit => .ok (.halt st)

/-- One iteration of `run`'s loop: fetch the command at `pc`, advance
`pc`, apply the effect. -/
def step (p : Program) (st : VMState) : Except Err StepRes :=
  match p.get_command st.pc with
  | .error e => .error e
  | .ok cmd => execCmd p cmd { st with pc := st.pc + 1 }

/-- The state after `k` continuing steps, or `none` if the machine
faults or halts before then. -/
def stepN (p : Program) : ℕ → VMState → Option VMState
  | 0, st => some st
  | k + 1, st =>
    match step p st with
    | .ok (.cont st') => stepN p k st'
    | _ => none

/-- `run`'s loop with explicit fuel: `.ok (some st)` is a successful
halt in state `st`, `.ok none` means the fuel ran out (the source loop
would still be running), `.error e` is the fault `run` raises. -/
def runFuel (p : Program) : ℕ → VMState → Except Err (Option VMState)
  | 0, _ => .ok none
  | fuel + 1, st =>
    match step p st with
    | .error e => .error e
    | .ok (.halt st') => .ok (some st')
    | .ok (.cont st') => runFuel p fuel st'

/-- The machine state `run` starts from: `pc` 0 (set by
`Program.__init__`), empty stack, call stack and heap, the given input,
no output. -/
def initState (inp : List ℤ) : VMState :=
  ⟨0, [], [], [], inp, []⟩

/-- The spec's `decode_instruction`: the `consume_any` over the
instruction catalog followed by the `Instruction(ins)` reverse lookup,
exactly as `parse`'s loop performs them. -/
def decode_instruction (code : List Symb) (pos : ℕ) : Except Err (Instruction × ℕ) :=
  match consume_any code catalogCodes pos with
  | .error e => .error e
  | .ok (c, p) =>
    match instrOfCode c with
    | none => .error .valueError
    | some i => .ok (i, p)

/-- A list of codes is prefix-free: a code that is a prefix of another
code of the list is that code itself. -/
def prefixFreeCodes (cs : List (List Symb)) : Prop :=
  ∀ c₁ ∈ cs, ∀ c₂ ∈ cs, c₁.isPrefixOf c₂ = true → c₁ = c₂

/-- MSB-first binary digits of a positive number, accumulator style
(`s` = 0, `t` = 1); encoder used to state the number round-trip. -/
def binDigitsAux : ℕ → List Symb → List Symb
  | 0, acc => acc
  | x + 1, acc =>
    binDigitsAux ((x + 1) / 2) ((if (x + 1) % 2 = 1 then Symb.t else Symb.s) :: acc)
decreasing_by exact Nat.div_lt_self (Nat.succ_pos x) one_lt_two

/-- MSB-first binary digits of a natural number, `0` written as a
single `s` digit. -/
def binDigits (x : ℕ) : List Symb :=
  if x = 0 then [Symb.s] else binDigitsAux x []

/-- The encoding of a label definition: the `mark` instruction's code
followed by the label's symbols and the `n` terminator. -/
def markCode (lab : List Symb) : List Symb :=
  [Symb.n, Symb.s, Symb.s] ++ lab ++ [Symb.n]

/-- Claim C1: the claim states that `clean` is a pure total function
with no failure mode returning the whitespace subsequence of its input.
In the source, `str.maketrans` is given a `zip` object where its
one-argument form requires a `dict`, so `clean` raises `TypeError` on
every input (even the empty one) before looking at a single character;
the intended behaviour survives only in `cleanIntended`, modelled from
the spec. -/
theorem C1_clean_always_faults :
    (∀ text : List Char, clean text = .error .typeFault) ∧
    cleanIntended [' ', 'a', '\t', 'b', '\n', 'c'] = [Symb.s, Symb.t, Symb.n] := by
  exact ⟨fun _ => rfl, rfl⟩

/-- Claim C4: the claim states that `decode_number` fails whenever no
`LF` terminator occurs at or after the position. On `sts` at offset 0
there is no terminator anywhere, yet the source's `consume_number`
returns the value 1 with new position 0: `str.find` yields the sentinel
`-1`, which survives the two equality guards, makes the slice
`code[offset+1:-1]` read `t` as the magnitude, and makes
`terminal + 1 = 0` the returned position. -/
theorem C4_consume_number_missing_terminator :
    consume_number [Symb.s, Symb.t, Symb.s] 0 = .ok (1, 0) := by
  rfl

/-- Claim C5: the claim states that `decode_label` consumes up to an
`LF` terminator and fails when there is none. The normal path is
correct, but with no terminator the source's `consume_label` does not
fail: on `ss` at offset 0, `str.find` yields `-1`, the slice
`code[offset:-1]` silently drops the last symbol, and the returned
position `terminal + 1` is 0 — the docstring's "position after terminal
character" does not exist. -/
theorem C5_consume_label_missing_terminator :
    consume_label [Symb.s, Symb.s] 0 = ([Symb.s], 0) := by
  rfl

theorem firstMatch_found {codePart : List Symb} {choices : List (List Symb)} {q : ℕ} :
    ∀ {fuel start : ℕ}, start ≤ q → q < start + fuel → codePart.take q ∈ choices →
      ∃ pos, firstMatch codePart choices start fuel = some pos ∧ pos ≤ q := by
  intro fuel
  induction fuel with
  | zero => intro start h1 h2 _; omega
  | succ n ih =>
    intro start h1 h2 h3
    by_cases hs : codePart.take start ∈ choices
    · exact ⟨start, by simp [firstMatch, hs], h1⟩
    · have hne : start ≠ q := fun he => hs (he ▸ h3)
      obtain ⟨pos, hp, hle⟩ := @ih (start + 1) (by omega) (by omega) h3
      exact ⟨pos, by simp [firstMatch, hs, hp], hle⟩

theorem firstMatch_mem {codePart : List Symb} {choices : List (List Symb)} {pos : ℕ} :
    ∀ {fuel start : ℕ}, firstMatch codePart choices start fuel = some pos →
      codePart.take pos ∈ choices := by
  intro fuel
  induction fuel with
  | zero => intro start h; simp [firstMatch] at h
  | succ n ih =>
    intro start h
    by_cases hs : codePart.take start ∈ choices
    · simp [firstMatch, hs] at h
      exact h ▸ hs
    · simp [firstMatch, hs] at h
      exact ih h

theorem firstMatch_empty {codePart : List Symb} {choices : List (List Symb)}
    (h : ∀ q, codePart.take q ∉ choices) :
    ∀ {fuel start : ℕ}, firstMatch codePart choices start fuel = none := by
  intro fuel
  induction fuel with
  | zero => intro start; rfl
  | succ n ih => intro start; simp [firstMatch, h start, ih]

theorem catalog_prefixFree : prefixFreeCodes catalogCodes := by
  unfold prefixFreeCodes
  decide

theorem catalog_maxLen : maxLenOf catalogCodes = some 4 := by rfl

theorem catalog_len_le : ∀ c ∈ catalogCodes, c.length ≤ 4 := by decide

theorem prefix_total {l₁ l₂ l₃ : List Symb} (h1 : l₁ <+: l₃) (h2 : l₂ <+: l₃) :
    l₁ <+: l₂ ∨ l₂ <+: l₁ := by
  rcases Nat.le_total l₁.length l₂.length with h | h
  · left
    rw [List.prefix_iff_eq_take.mp h1, List.prefix_iff_eq_take.mp h2]
    exact List.take_prefix_take_left _ h
  · right
    rw [List.prefix_iff_eq_take.mp h1, List.prefix_iff_eq_take.mp h2]
    exact List.take_prefix_take_left _ h

theorem consume_any_catalog_found {code : List Symb} {offset : ℕ} {c : List Symb}
    (hoff : offset < code.length) (hc : c ∈ catalogCodes) (hpre : c <+: code.drop offset) :
    consume_any code catalogCodes offset = .ok (c, offset + c.length) := by
  have hnle : ¬ code.length ≤ offset := by omega
  have htake : (code.drop offset).take c.length = c := (List.prefix_iff_eq_take.mp hpre).symm
  have hlen : c.length < 5 := by have := catalog_len_le c hc; omega
  have hmem0 : (code.drop offset).take c.length ∈ catalogCodes := by
    rw [htake]
    exact hc
  obtain ⟨pos, hfm, hle⟩ :=
    @firstMatch_found (code.drop offset) catalogCodes c.length 5 0 (by omega) (by omega) hmem0
  have hmem := firstMatch_mem hfm
  have heq : (code.drop offset).take pos = c := by
    rcases prefix_total (List.take_prefix pos (code.drop offset)) hpre with h | h
    · exact catalog_prefixFree _ hmem _ hc ((List.isPrefixOf_iff_prefix).mpr h)
    · exact (catalog_prefixFree _ hc _ hmem ((List.isPrefixOf_iff_prefix).mpr h)).symm
  have hge : c.length ≤ pos := by
    have := congrArg List.length heq
    simp [List.length_take] at this
    omega
  have hpos : pos = c.length := by omega
  subst hpos
  simp only [consume_any, hnle, if_false, catalog_maxLen, heq, hfm]

theorem consume_any_past {code : List Symb} {choices : List (List Symb)} {offset : ℕ}
    (hoff : code.length ≤ offset) :
    consume_any code choices offset = .error .consumeEmpty := by
  simp [consume_any, hoff]

theorem consume_any_catalog_nomatch {code : List Symb} {offset : ℕ}
    (hoff : offset < code.length)
    (h : ∀ c ∈ catalogCodes, ¬ c <+: code.drop offset) :
    consume_any code catalogCodes offset = .error .noMatch := by
  have hnle : ¬ code.length ≤ offset := by omega
  have hnone : ∀ q, (code.drop offset).take q ∉ catalogCodes := by
    intro q hq
    exact h _ hq (List.take_prefix _ _)
  simp only [consume_any, hnle, if_false, catalog_maxLen, firstMatch_empty hnone]

theorem instrOfCode_value : ∀ i : Instruction, instrOfCode i.value = some i := by
  intro i; cases i <;> rfl

/-- Claim C2: `decode_instruction` (the `consume_any` over the
instruction catalog followed by `Instruction(...)`) returns the unique
catalog instruction whose code matches at the position (unambiguous
because the 24 codes are prefix-free) with the position after the
match; at or past the end of the symbols it fails with the truncation
error, which is a different error from the no-match failure that occurs
when no prefix up to the maximum code length is a catalog code. -/
theorem C2_decode_instruction (code : List Symb) (offset : ℕ) (i : Instruction) :
    (prefixFreeCodes catalogCodes ∧ catalogCodes.length = 24) ∧
    (offset < code.length → i.value <+: code.drop offset →
      decode_instruction code offset = .ok (i, offset + i.value.length)) ∧
    (code.length ≤ offset → decode_instruction code offset = .error .consumeEmpty) ∧
    (offset < code.length → (∀ c ∈ catalogCodes, ¬ c <+: code.drop offset) →
      decode_instruction code offset = .error .noMatch) ∧
    Err.consumeEmpty ≠ Err.noMatch := by
  refine ⟨⟨catalog_prefixFree, rfl⟩, ?_, ?_, ?_, by decide⟩
  · intro hoff hpre
    have hc : i.value ∈ catalogCodes := by cases i <;> decide
    simp only [decode_instruction, consume_any_catalog_found hoff hc hpre, instrOfCode_value]
  · intro hoff
    simp only [decode_instruction, consume_any_past hoff]
  · intro hoff h
    simp only [decode_instruction, consume_any_catalog_nomatch hoff h]

/-- Witness for C2 at concrete inputs: `ss` decodes to `push` ending at
position 2, decoding past the end is the truncation error, and a lone
tab matches no catalog code. -/
theorem C2_decode_instruction_witness :
    decode_instruction [Symb.s, Symb.s, Symb.t, Symb.n] 0 = .ok (Instruction.push, 2) ∧
    decode_instruction [Symb.s] 1 = .error .consumeEmpty ∧
    decode_instruction [Symb.t] 0 = .error .noMatch := by
  refine ⟨?_, ?_, ?_⟩
  · have h := (C2_decode_instruction [Symb.s, Symb.s, Symb.t, Symb.n] 0 Instruction.push).2.1
      (by decide) (by decide)
    simpa using h
  · exact (C2_decode_instruction [Symb.s] 1 Instruction.push).2.2.1 (by decide)
  · exact (C2_decode_instruction [Symb.t] 0 Instruction.push).2.2.2.1 (by decide) (by decide)

theorem binDigitsAux_zero (acc : List Symb) : binDigitsAux 0 acc = acc := by
  rw [binDigitsAux]

theorem binDigitsAux_succ (y : ℕ) (acc : List Symb) :
    binDigitsAux (y + 1) acc =
      binDigitsAux ((y + 1) / 2) ((if (y + 1) % 2 = 1 then Symb.t else Symb.s) :: acc) := by
  rw [binDigitsAux]

theorem binDigitsAux_append (x : ℕ) :
    ∀ acc, binDigitsAux x acc = binDigitsAux x [] ++ acc := by
  induction x using Nat.strong_induction_on with
  | _ x ih =>
    intro acc
    match x with
    | 0 => rw [binDigitsAux_zero, binDigitsAux_zero]; rfl
    | y + 1 =>
      have hlt : (y + 1) / 2 < y + 1 := Nat.div_lt_self (Nat.succ_pos y) one_lt_two
      rw [binDigitsAux_succ, binDigitsAux_succ, ih _ hlt, ih _ hlt
        ((if (y + 1) % 2 = 1 then Symb.t else Symb.s) :: [])]
      simp

theorem binDigitsAux_core_val (x : ℕ) :
    (binDigitsAux x []).foldl (fun acc b => 2 * acc + if b = Symb.t then 1 else 0) 0 = x := by
  induction x using Nat.strong_induction_on with
  | _ x ih =>
    match x with
    | 0 => rw [binDigitsAux_zero]; rfl
    | y + 1 =>
      have hlt : (y + 1) / 2 < y + 1 := Nat.div_lt_self (Nat.succ_pos y) one_lt_two
      rw [binDigitsAux_succ, binDigitsAux_append _ _, List.foldl_append, ih _ hlt]
      have hmod : (if (if (y + 1) % 2 = 1 then Symb.t else Symb.s) = Symb.t then 1 else 0) =
          (y + 1) % 2 := by
        rcases Nat.mod_two_eq_zero_or_one (y + 1) with h | h <;> simp [h]
      simp only [List.foldl_cons, List.foldl_nil, hmod]
      omega

theorem binDigitsAux_no_n (x : ℕ) : Symb.n ∉ binDigitsAux x [] := by
  induction x using Nat.strong_induction_on with
  | _ x ih =>
    match x with
    | 0 => rw [binDigitsAux_zero]; simp
    | y + 1 =>
      have hlt : (y + 1) / 2 < y + 1 := Nat.div_lt_self (Nat.succ_pos y) one_lt_two
      rw [binDigitsAux_succ, binDigitsAux_append _ _]
      intro hmem
      rcases List.mem_append.mp hmem with h | h
      · exact ih _ hlt h
      · simp at h
        split at h <;> cases h

theorem binDigits_no_n (x : ℕ) : Symb.n ∉ binDigits x := by
  unfold binDigits
  split
  · decide
  · exact binDigitsAux_no_n x

theorem binDigits_ne_nil (x : ℕ) : binDigits x ≠ [] := by
  unfold binDigits
  split
  · simp
  · match x, ‹x ≠ 0› with
    | y + 1, _ =>
      rw [binDigitsAux_succ, binDigitsAux_append _ _]
      simp

theorem int2_binDigits (x : ℕ) : int2 (binDigits x) = .ok x := by
  rw [int2, if_neg (binDigits_ne_nil x)]
  have hno : (binDigits x).any (fun b => b = Symb.n) = false := by
    rw [List.any_eq_false]
    intro b hb
    have : b ≠ Symb.n := fun he => binDigits_no_n x (he ▸ hb)
    simpa using this
  rw [hno]
  simp only [Bool.false_eq_true, if_false]
  unfold binDigits
  split
  · subst ‹x = 0›; rfl
  · rw [binDigitsAux_core_val]

theorem findSym_append {c : Symb} {l₁ l₂ : List Symb} (h : c ∉ l₁) :
    findSym c (l₁ ++ c :: l₂) = some l₁.length := by
  induction l₁ with
  | nil => simp [findSym]
  | cons x xs ih =>
    have hx : x ≠ c := fun he => h (he ▸ List.mem_cons_self x xs)
    have hxs : c ∉ xs := fun hm => h (List.mem_cons_of_mem x hm)
    simp [findSym, hx, ih hxs]

theorem strFind_append {l₁ l₂ : List Symb} (h : Symb.n ∉ l₁) :
    strFind (l₁ ++ Symb.n :: l₂) Symb.n 0 = (l₁.length : ℤ) := by
  rw [strFind]
  simp only [List.drop_zero]
  rw [findSym_append h]
  simp

theorem consume_number_encode (sgn : Symb) (hs : sgn ≠ Symb.n) (N : ℕ) :
    consume_number (sgn :: binDigits N ++ [Symb.n]) 0 =
      .ok ((if sgn = Symb.t then -1 else 1) * (N : ℤ), (binDigits N).length + 2) := by
  have hnoL : Symb.n ∉ sgn :: binDigits N := by
    intro h
    rcases List.mem_cons.mp h with h | h
    · exact hs h.symm
    · exact binDigits_no_n N h
  have hsplit : sgn :: binDigits N ++ [Symb.n] = (sgn :: binDigits N) ++ Symb.n :: [] := by
    simp
  have hfind : strFind (sgn :: binDigits N ++ [Symb.n]) Symb.n 0 =
      (((binDigits N).length + 1 : ℕ) : ℤ) := by
    rw [hsplit, strFind_append hnoL]
    simp
  have hlen1 : 1 ≤ (binDigits N).length := by
    cases hL : binDigits N
    · exact absurd hL (binDigits_ne_nil N)
    · simp
  have h0 : ¬ ((((binDigits N).length + 1 : ℕ) : ℤ) = ((0 : ℕ) : ℤ)) := by push_cast; omega
  have h1 : ¬ ((((binDigits N).length + 1 : ℕ) : ℤ) = ((0 : ℕ) : ℤ) + 1) := by
    push_cast; omega
  have htoNat : ((((binDigits N).length + 1 : ℕ) : ℤ) + 1).toNat = (binDigits N).length + 2 := by
    omega
  have hslice : pySlice (sgn :: binDigits N ++ [Symb.n]) 1
      (((binDigits N).length + 1 : ℕ) : ℤ) = binDigits N := by
    rw [pySlice]
    simp only [if_neg (by omega : ¬ ((((binDigits N).length + 1 : ℕ) : ℤ) < 0)),
      Int.toNat_natCast, ← List.cons_append]
    rw [List.take_left' (by simp)]
    rfl
  cases sgn with
  | n => exact absurd rfl hs
  | s =>
    rw [consume_number]
    simp only [hfind, h0, if_false, h1, List.get?_cons_zero, hslice, int2_binDigits, htoNat]
    simp
  | t =>
    rw [consume_number]
    simp only [hfind, h0, if_false, h1, List.get?_cons_zero, hslice, int2_binDigits, htoNat]
    simp

/-- Claim C3: decoding `SPACE` + MSB-first binary digits of `N` + `LF`
with `consume_number` yields exactly `N`; a sign symbol immediately
followed by the terminator decodes to 0 for either sign; and a `TAB`
sign makes the decoded value the negation of the encoded magnitude. -/
theorem C3_number_roundtrip (N : ℕ) :
    consume_number (Symb.s :: binDigits N ++ [Symb.n]) 0 =
      .ok ((N : ℤ), (binDigits N).length + 2) ∧
    consume_number [Symb.s, Symb.n] 0 = .ok (0, 2) ∧
    consume_number [Symb.t, Symb.n] 0 = .ok (0, 2) ∧
    consume_number (Symb.t :: binDigits N ++ [Symb.n]) 0 =
      .ok (-(N : ℤ), (binDigits N).length + 2) := by
  refine ⟨?_, rfl, rfl, ?_⟩
  · simpa using consume_number_encode Symb.s (by decide) N
  · simpa using consume_number_encode Symb.t (by decide) N

theorem strFind_at {code : List Symb} {pos : ℕ} {lab rest : List Symb}
    (hdrop : code.drop pos = lab ++ Symb.n :: rest) (hlab : Symb.n ∉ lab) :
    strFind code Symb.n pos = ((pos + lab.length : ℕ) : ℤ) := by
  rw [strFind, hdrop, findSym_append hlab]

theorem consume_label_found {code : List Symb} {pos : ℕ} {lab rest : List Symb}
    (hdrop : code.drop pos = lab ++ Symb.n :: rest) (hlab : Symb.n ∉ lab) :
    consume_label code pos = (lab, pos + lab.length + 1) := by
  simp only [consume_label, strFind_at hdrop hlab, Prod.mk.injEq]
  refine ⟨?_, ?_⟩
  · rw [pySlice]
    simp only [if_neg (by omega : ¬ (((pos + lab.length : ℕ) : ℤ) < 0)), Int.toNat_natCast,
      ← List.take_drop, hdrop]
    exact List.take_left' rfl
  · omega

theorem parse_mark_step {code : List Symb} {pos fuel : ℕ} {lab rest : List Symb}
    {prog : Program}
    (hdrop : code.drop pos = markCode lab ++ rest) (hlab : Symb.n ∉ lab) :
    parseAux code (fuel + 1) pos prog =
      match prog.add_command ⟨Instruction.mark, none, some lab⟩ with
      | .error e => .error e
      | .ok prog' => parseAux code fuel (pos + lab.length + 4) prog' := by
  have hshape : code.drop pos = [Symb.n, Symb.s, Symb.s] ++ (lab ++ Symb.n :: rest) := by
    rw [hdrop]
    simp [markCode]
  have hlen : pos < code.length := by
    have h := congrArg List.length hshape
    simp [List.length_drop] at h
    omega
  have hpre : Instruction.mark.value <+: code.drop pos := by
    rw [hshape]
    exact ⟨lab ++ Symb.n :: rest, rfl⟩
  have hca : consume_any code catalogCodes pos = .ok ([Symb.n, Symb.s, Symb.s], pos + 3) := by
    simpa using consume_any_catalog_found hlen (by decide) hpre
  have hdrop3 : code.drop (pos + 3) = lab ++ Symb.n :: rest := by
    have h3 := congrArg (List.drop 3) hshape
    rw [List.drop_drop] at h3
    simpa using h3
  have hcl : consume_label code (pos + 3) = (lab, pos + 3 + lab.length + 1) :=
    consume_label_found hdrop3 hlab
  have harith : pos + 3 + lab.length + 1 = pos + lab.length + 4 := by omega
  have hio : instrOfCode [Symb.n, Symb.s, Symb.s] = some Instruction.mark := by rfl
  have hmk : mkCommand Instruction.mark none (some lab) =
      .ok ⟨Instruction.mark, none, some lab⟩ := by rfl
  rw [parseAux, if_neg (by omega : ¬ code.length ≤ pos), hca]
  simp only [hio, Instruction.takes_number, Instruction.takes_label, Bool.false_eq_true,
    if_false, if_true, hcl, hmk, harith]

/-- Claim C6: during program build a decoded `mark` command is never
appended to the executable command sequence; its label is bound in the
label table to the number of executable commands appended so far; a
non-`mark` command is appended and leaves the table alone; and parsing
a program that defines the same label twice fails with the
duplicate-label error (a pure build-time failure — `parse` never touches
any machine state). -/
theorem C6_mark_not_appended_and_duplicate_rejected :
    (∀ (p : Program) (cmd : Command), cmd.ins = Instruction.mark →
        p.labels.lookup cmd.label = none →
        p.add_command cmd =
          .ok { p with labels := p.labels ++ [(cmd.label, p.commands.length)] }) ∧
    (∀ (p : Program) (cmd : Command), cmd.ins = Instruction.mark →
        (p.labels.lookup cmd.label).isSome →
        p.add_command cmd = .error .duplicateLabel) ∧
    (∀ (p : Program) (cmd : Command), cmd.ins ≠ Instruction.mark →
        p.add_command cmd = .ok { p with commands := p.commands ++ [cmd] }) ∧
    (∀ lab : List Symb, Symb.n ∉ lab →
        parse (markCode lab ++ markCode lab) = .error .duplicateLabel) := by
  refine ⟨?_, ?_, ?_, ?_⟩
  · intro p cmd h1 h2
    rw [Program.add_command, if_pos h1, h2]
  · intro p cmd h1 h2
    rw [Program.add_command, if_pos h1]
    match hl : p.labels.lookup cmd.label with
    | some k => rfl
    | none => rw [hl] at h2; simp at h2
  · intro p cmd h1
    rw [Program.add_command, if_neg h1]
  · intro lab hlab
    have hfuel : (markCode lab ++ markCode lab).length + 1 = 2 * lab.length + 7 + 1 + 1 := by
      simp only [markCode, List.length_append, List.length_cons, List.length_nil]
      omega
    have hadd1 : Program.add_command ⟨[], []⟩ ⟨Instruction.mark, none, some lab⟩ =
        .ok ⟨[], [(some lab, 0)]⟩ := by rfl
    have hdrop2 : (markCode lab ++ markCode lab).drop (0 + lab.length + 4) =
        markCode lab ++ [] := by
      rw [List.append_nil]
      refine List.drop_left' ?_
      simp only [markCode, List.length_append, List.length_cons, List.length_nil]
      omega
    have hadd2 : Program.add_command ⟨[], [(some lab, 0)]⟩ ⟨Instruction.mark, none, some lab⟩ =
        .error .duplicateLabel := by
      rw [Program.add_command, if_pos rfl]
      simp [List.lookup]
    rw [parse, hfuel,
      parse_mark_step
        (show (markCode lab ++ markCode lab).drop 0 = markCode lab ++ markCode lab by simp)
        hlab,
      hadd1]
    show parseAux (markCode lab ++ markCode lab) (2 * lab.length + 7 + 1)
      (0 + lab.length + 4) ⟨[], [(some lab, 0)]⟩ = .error .duplicateLabel
    rw [parse_mark_step hdrop2 hlab, hadd2]

/-- Witness for C6 at concrete inputs: registering label `t` in an empty
program binds it to index 0 without appending a command, registering it
again fails, a non-mark command is appended, and the two-definition
program `nss t n nss t n` is rejected by `parse` with the
duplicate-label error. -/
theorem C6_witness :
    Program.add_command ⟨[], []⟩ ⟨Instruction.mark, none, some [Symb.t]⟩ =
      .ok ⟨[], [(some [Symb.t], 0)]⟩ ∧
    Program.add_command ⟨[], [(some [Symb.t], 0)]⟩ ⟨Instruction.mark, none, some [Symb.t]⟩ =
      .error .duplicateLabel ∧
    Program.add_command ⟨[], []⟩ ⟨Instruction.exit, none, none⟩ =
      .ok ⟨[⟨Instruction.exit, none, none⟩], []⟩ ∧
    parse (markCode [Symb.t] ++ markCode [Symb.t]) = .error .duplicateLabel := by
  refine ⟨?_, ?_, ?_, ?_⟩
  · simpa using
      C6_mark_not_appended_and_duplicate_rejected.1 ⟨[], []⟩
        ⟨Instruction.mark, none, some [Symb.t]⟩ rfl rfl
  · exact
      C6_mark_not_appended_and_duplicate_rejected.2.1 ⟨[], [(some [Symb.t], 0)]⟩
        ⟨Instruction.mark, none, some [Symb.t]⟩ rfl (by rfl)
  · simpa using
      C6_mark_not_appended_and_duplicate_rejected.2.2.1 ⟨[], []⟩
        ⟨Instruction.exit, none, none⟩ (by decide)
  · exact C6_mark_not_appended_and_duplicate_rejected.2.2.2 [Symb.t] (by decide)

theorem fmod_neg_bounds (x y : ℤ) (hy : y < 0) : y < Int.fmod x y ∧ Int.fmod x y ≤ 0 := by
  cases y with
  | ofNat m => exact absurd hy (not_lt.mpr (Int.ofNat_nonneg m))
  | negSucc n =>
    cases x with
    | ofNat m =>
      cases m with
      | zero =>
        have h0 : Int.fmod (Int.ofNat 0) (Int.negSucc n) = 0 := rfl
        rw [h0, Int.negSucc_eq]
        omega
      | succ k =>
        have hfm : Int.fmod (Int.ofNat (k + 1)) (Int.negSucc n) =
            Int.subNatNat (k % (n + 1)) n := rfl
        have hk : k % (n + 1) < n + 1 := Nat.mod_lt k (Nat.succ_pos n)
        rw [hfm, Int.subNatNat_eq_coe, Int.negSucc_eq]
        omega
    | negSucc m =>
      have hfm : Int.fmod (Int.negSucc m) (Int.negSucc n) =
          -(Int.ofNat ((m + 1) % (n + 1))) := rfl
      have hk : (m + 1) % (n + 1) < n + 1 := Nat.mod_lt (m + 1) (Nat.succ_pos n)
      rw [hfm, Int.negSucc_eq, Int.ofNat_eq_coe]
      omega

/-- Claim C8: each arithmetic instruction pops two elements (`a` the
top, `b` the second) and pushes the single result `b+a`, `b-a`, `b*a`,
`b fdiv a`, or `b fmod a` respectively; dividing or taking the modulus
with `a = 0` is a zero-division fault; an operand stack of fewer than
two elements is an underflow fault; and floor semantics holds: the
quotient and remainder satisfy `b = a * q + r` where the remainder has
the divisor's sign convention (nonnegative and below a positive `a`,
nonpositive and above a negative `a`). -/
theorem C8_arithmetic (p : Program) (cmd : Command) (st : VMState) (a b : ℤ)
    (rest : List ℤ) :
    (st.stack = a :: b :: rest →
      (cmd.ins = Instruction.add →
        execCmd p cmd st = .ok (.cont { st with stack := (b + a) :: rest })) ∧
      (cmd.ins = Instruction.sub →
        execCmd p cmd st = .ok (.cont { st with stack := (b - a) :: rest })) ∧
      (cmd.ins = Instruction.mul →
        execCmd p cmd st = .ok (.cont { st with stack := (b * a) :: rest })) ∧
      (cmd.ins = Instruction.div → a ≠ 0 →
        execCmd p cmd st = .ok (.cont { st with stack := Int.fdiv b a :: rest })) ∧
      (cmd.ins = Instruction.mod → a ≠ 0 →
        execCmd p cmd st = .ok (.cont { st with stack := Int.fmod b a :: rest })) ∧
      ((cmd.ins = Instruction.div ∨ cmd.ins = Instruction.mod) → a = 0 →
        execCmd p cmd st = .error .zeroDivision)) ∧
    ((cmd.ins = Instruction.add ∨ cmd.ins = Instruction.sub ∨ cmd.ins = Instruction.mul ∨
        cmd.ins = Instruction.div ∨ cmd.ins = Instruction.mod) →
      st.stack.length < 2 → execCmd p cmd st = .error .popEmpty) ∧
    (a ≠ 0 →
      b = a * Int.fdiv b a + Int.fmod b a ∧
      (0 < a → 0 ≤ Int.fmod b a ∧ Int.fmod b a < a) ∧
      (a < 0 → a < Int.fmod b a ∧ Int.fmod b a ≤ 0)) := by
  refine ⟨?_, ?_, ?_⟩
  · intro hst
    refine ⟨?_, ?_, ?_, ?_, ?_, ?_⟩
    · intro hins; simp [execCmd, hins, hst]
    · intro hins; simp [execCmd, hins, hst]
    · intro hins; simp [execCmd, hins, hst]
    · intro hins ha; simp [execCmd, hins, hst, ha]
    · intro hins ha; simp [execCmd, hins, hst, ha]
    · intro hins ha
      subst ha
      rcases hins with hins | hins <;> simp [execCmd, hins, hst]
  · intro hins hlen
    have hs : st.stack = [] ∨ ∃ x, st.stack = [x] := by
      match hstk : st.stack with
      | [] => exact Or.inl rfl
      | [x] => exact Or.inr ⟨x, rfl⟩
      | x :: y :: r => rw [hstk] at hlen; simp at hlen; omega
    rcases hins with h | h | h | h | h <;>
      rcases hs with hs | ⟨x, hs⟩ <;> simp [execCmd, h, hs]
  · intro ha
    refine ⟨?_, ?_, ?_⟩
    · have h := Int.fmod_add_fdiv b a
      linarith
    · intro hpos
      exact ⟨Int.fmod_nonneg' b hpos, Int.fmod_lt_of_pos b hpos⟩
    · intro hneg
      exact fmod_neg_bounds b a hneg

/-- Witness for C8 at concrete inputs: `5 + 3 = 8`, `(-7) fdiv 2 = -4`
with remainder `1`, division by a zero top element faults, a one-element
stack underflows, and the floor identity holds at `b = -7`, `a = 2`. -/
theorem C8_witness :
    execCmd ⟨[], []⟩ ⟨Instruction.add, none, none⟩ ⟨0, [3, 5], [], [], [], []⟩ =
      .ok (.cont ⟨0, [8], [], [], [], []⟩) ∧
    execCmd ⟨[], []⟩ ⟨Instruction.div, none, none⟩ ⟨0, [2, -7], [], [], [], []⟩ =
      .ok (.cont ⟨0, [-4], [], [], [], []⟩) ∧
    execCmd ⟨[], []⟩ ⟨Instruction.mod, none, none⟩ ⟨0, [2, -7], [], [], [], []⟩ =
      .ok (.cont ⟨0, [1], [], [], [], []⟩) ∧
    execCmd ⟨[], []⟩ ⟨Instruction.div, none, none⟩ ⟨0, [0, 5], [], [], [], []⟩ =
      .error .zeroDivision ∧
    execCmd ⟨[], []⟩ ⟨Instruction.sub, none, none⟩ ⟨0, [3], [], [], [], []⟩ =
      .error .popEmpty ∧
    (-7 : ℤ) = 2 * Int.fdiv (-7) 2 + Int.fmod (-7) 2 := by
  refine ⟨?_, ?_, ?_, ?_, ?_, ?_⟩
  · have h := ((C8_arithmetic ⟨[], []⟩ ⟨Instruction.add, none, none⟩
      ⟨0, [3, 5], [], [], [], []⟩ 3 5 []).1 rfl).1 rfl
    simpa using h
  · have h := ((C8_arithmetic ⟨[], []⟩ ⟨Instruction.div, none, none⟩
      ⟨0, [2, -7], [], [], [], []⟩ 2 (-7) []).1 rfl).2.2.2.1 rfl (by decide)
    have he : Int.fdiv (-7) 2 = -4 := by decide
    rw [he] at h
    exact h
  · have h := ((C8_arithmetic ⟨[], []⟩ ⟨Instruction.mod, none, none⟩
      ⟨0, [2, -7], [], [], [], []⟩ 2 (-7) []).1 rfl).2.2.2.2.1 rfl (by decide)
    have he : Int.fmod (-7) 2 = 1 := by decide
    rw [he] at h
    exact h
  · exact ((C8_arithmetic ⟨[], []⟩ ⟨Instruction.div, none, none⟩
      ⟨0, [0, 5], [], [], [], []⟩ 0 5 []).1 rfl).2.2.2.2.2 (Or.inl rfl) rfl
  · exact (C8_arithmetic ⟨[], []⟩ ⟨Instruction.sub, none, none⟩
      ⟨0, [3], [], [], [], []⟩ 0 0 []).2.1 (Or.inr (Or.inl rfl)) (by decide)
  · exact ((C8_arithmetic ⟨[], []⟩ ⟨Instruction.div, none, none⟩
      ⟨0, [], [], [], [], []⟩ 2 (-7) []).2.2 (by decide)).1

/-- Claim C9: executing `discard_n` with a positive operand removes the
operand-many elements directly below the top of the stack (all of them
when fewer exist), keeping the top element; with a non-positive operand
(`n` is then taken to be the whole stack length) it discards everything
except the top element, which is preserved. -/
theorem C9_discard_n (p : Program) (cmd : Command) (st : VMState) (num top : ℤ)
    (rest : List ℤ) (hins : cmd.ins = Instruction.discard_n)
    (hnum : cmd.number = some num) (hstack : st.stack = top :: rest) :
    (0 < num →
      execCmd p cmd st = .ok (.cont { st with stack := top :: rest.drop num.toNat })) ∧
    (num ≤ 0 → execCmd p cmd st = .ok (.cont { st with stack := [top] })) := by
  constructor
  · intro hpos
    simp [execCmd, hins, hnum, hstack, pyDiscard, hpos]
  · intro hnonpos
    have hdrop : rest.drop (top :: rest).length = [] :=
      List.drop_eq_nil_of_le (by simp)
    simp [execCmd, hins, hnum, hstack, pyDiscard, if_neg (by omega : ¬ 0 < num), hdrop]

/-- Witness for C9 at concrete inputs: discarding 2 below the top of
`[9, 1, 2, 3]` (top first) keeps `9` and drops `1, 2`; a non-positive
operand keeps only the top. -/
theorem C9_witness :
    execCmd ⟨[], []⟩ ⟨Instruction.discard_n, some 2, none⟩ ⟨0, [9, 1, 2, 3], [], [], [], []⟩ =
      .ok (.cont ⟨0, [9, 3], [], [], [], []⟩) ∧
    execCmd ⟨[], []⟩ ⟨Instruction.discard_n, some (-1), none⟩ ⟨0, [9, 1, 2, 3], [], [], [], []⟩ =
      .ok (.cont ⟨0, [9], [], [], [], []⟩) := by
  constructor
  · have h := (C9_discard_n ⟨[], []⟩ ⟨Instruction.discard_n, some 2, none⟩
      ⟨0, [9, 1, 2, 3], [], [], [], []⟩ 2 9 [1, 2, 3] rfl rfl rfl).1 (by decide)
    simpa using h
  · have h := (C9_discard_n ⟨[], []⟩ ⟨Instruction.discard_n, some (-1), none⟩
      ⟨0, [9, 1, 2, 3], [], [], [], []⟩ (-1) 9 [1, 2, 3] rfl rfl rfl).2 (by decide)
    simpa using h

theorem get_command_err {p : Program} {pc : ℕ} {e : Err}
    (h : p.get_command pc = .error e) : e = .endOfProgram := by
  rw [Program.get_command] at h
  split at h
  · cases h
  · exact (Except.error.inj h).symm

theorem execCmd_halt {p : Program} {cmd : Command} {st r : VMState}
    (h : execCmd p cmd st = .ok (.halt r)) : cmd.ins = Instruction.exit ∧ r = st := by
  cases hins : cmd.ins <;> simp only [execCmd, hins] at h
  case exit =>
    refine ⟨rfl, ?_⟩
    injection h with h2
    injection h2 with h3
    exact h3.symm
  all_goals (repeat' split at h) <;> simp_all

theorem step_past {p : Program} {st : VMState} (h : p.commands.length ≤ st.pc) :
    step p st = .error .endOfProgram := by
  have hn : ¬ st.pc < p.commands.length := by omega
  simp [step, Program.get_command, hn]

theorem step_halt {p : Program} {st r : VMState} (h : step p st = .ok (.halt r)) :
    ∃ cmd, p.get_command st.pc = .ok cmd ∧ cmd.ins = Instruction.exit := by
  rw [step] at h
  split at h
  · cases h
  · next cmd heq => exact ⟨cmd, heq, (execCmd_halt h).1⟩

theorem runFuel_ok_decomp {p : Program} :
    ∀ {fuel : ℕ} {st st' : VMState}, runFuel p fuel st = .ok (some st') →
      ∃ k st₀, stepN p k st = some st₀ ∧ step p st₀ = .ok (.halt st') := by
  intro fuel
  induction fuel with
  | zero => intro st st' h; simp [runFuel] at h
  | succ n ih =>
    intro st st' h
    rw [runFuel] at h
    cases hstep : step p st with
    | error e => rw [hstep] at h; cases h
    | ok sr =>
      cases sr with
      | halt st₂ =>
        rw [hstep] at h
        simp at h
        subst h
        exact ⟨0, st, rfl, hstep⟩
      | cont st₂ =>
        rw [hstep] at h
        obtain ⟨k, st₀, h1, h2⟩ := ih h
        refine ⟨k + 1, st₀, ?_, h2⟩
        rw [stepN, hstep]
        exact h1

theorem runFuel_err_decomp {p : Program} :
    ∀ {fuel : ℕ} {st : VMState} {e : Err}, runFuel p fuel st = .error e →
      ∃ k st₀, stepN p k st = some st₀ ∧ step p st₀ = .error e := by
  intro fuel
  induction fuel with
  | zero => intro st e h; simp [runFuel] at h
  | succ n ih =>
    intro st e h
    rw [runFuel] at h
    cases hstep : step p st with
    | error e₂ =>
      rw [hstep] at h
      have he : e₂ = e := by
        have := h
        simp at this
        exact this
      subst he
      exact ⟨0, st, rfl, hstep⟩
    | ok sr =>
      cases sr with
      | halt st₂ => rw [hstep] at h; cases h
      | cont st₂ =>
        rw [hstep] at h
        obtain ⟨k, st₀, h1, h2⟩ := ih h
        refine ⟨k + 1, st₀, ?_, h2⟩
        rw [stepN, hstep]
        exact h1

/-- Claim C10: a run terminates successfully only by executing an
`exit` instruction: fetching with the program counter at or past the
last executable command faults with the 'unexpected end of program'
error, a halting step can only come from an `exit` command, and any
successful run decomposes into continuing steps followed by one `exit`
step. -/
theorem C10_success_only_by_exit (p : Program) (st : VMState) :
    (p.commands.length ≤ st.pc → step p st = .error .endOfProgram) ∧
    (∀ r : VMState, step p st = .ok (.halt r) →
      ∃ cmd, p.get_command st.pc = .ok cmd ∧ cmd.ins = Instruction.exit) ∧
    (∀ (fuel : ℕ) (st' : VMState), runFuel p fuel st = .ok (some st') →
      ∃ k st₀ cmd, stepN p k st = some st₀ ∧ p.get_command st₀.pc = .ok cmd ∧
        cmd.ins = Instruction.exit ∧ step p st₀ = .ok (.halt st')) := by
  refine ⟨step_past, fun r h => step_halt h, ?_⟩
  intro fuel st' h
  obtain ⟨k, st₀, h1, h2⟩ := runFuel_ok_decomp h
  obtain ⟨cmd, h3, h4⟩ := step_halt h2
  exact ⟨k, st₀, cmd, h1, h3, h4, h2⟩

/-- Witness for C10 at concrete programs: the empty program faults
immediately with 'unexpected end of program'; the one-instruction
program `exit` halts, and its successful run decomposes into zero steps
followed by the `exit` step. -/
theorem C10_witness :
    step ⟨[], []⟩ (initState []) = .error .endOfProgram ∧
    (∃ cmd, Program.get_command ⟨[⟨Instruction.exit, none, none⟩], []⟩ 0 = .ok cmd ∧
      cmd.ins = Instruction.exit) ∧
    (∃ k st₀ cmd,
      stepN ⟨[⟨Instruction.exit, none, none⟩], []⟩ k (initState []) = some st₀ ∧
      Program.get_command ⟨[⟨Instruction.exit, none, none⟩], []⟩ st₀.pc = .ok cmd ∧
      cmd.ins = Instruction.exit ∧
      step ⟨[⟨Instruction.exit, none, none⟩], []⟩ st₀ =
        .ok (.halt ⟨1, [], [], [], [], []⟩)) := by
  refine ⟨(C10_success_only_by_exit ⟨[], []⟩ (initState [])).1 (by decide), ?_, ?_⟩
  · exact (C10_success_only_by_exit ⟨[⟨Instruction.exit, none, none⟩], []⟩
      (initState [])).2.1 ⟨1, [], [], [], [], []⟩ (by rfl)
  · exact (C10_success_only_by_exit ⟨[⟨Instruction.exit, none, none⟩], []⟩
      (initState [])).2.2 1 ⟨1, [], [], [], [], []⟩ (by rfl)

theorem jump_err {p : Program} {lab : Option (List Symb)} {e : Err}
    (h : p.jump lab = .error e) : e = .undefinedLabel ∧ p.labels.lookup lab = none := by
  rw [Program.jump] at h
  split at h
  · next heq => exact ⟨(Except.error.inj h).symm, heq⟩
  · cases h

theorem execCmd_undef {p : Program} {cmd : Command} {st : VMState}
    (h : execCmd p cmd st = .error .undefinedLabel) :
    (cmd.ins = Instruction.call ∨ cmd.ins = Instruction.jump ∨
      cmd.ins = Instruction.jz ∨ cmd.ins = Instruction.jlz) ∧
    p.labels.lookup cmd.label = none := by
  cases hins : cmd.ins <;> simp only [execCmd, hins] at h
  case call =>
    refine ⟨Or.inl rfl, ?_⟩
    split at h
    · next heq => exact (jump_err heq).2
    · cases h
  case jump =>
    refine ⟨Or.inr (Or.inl rfl), ?_⟩
    split at h
    · next heq => exact (jump_err heq).2
    · cases h
  case jz =>
    refine ⟨Or.inr (Or.inr (Or.inl rfl)), ?_⟩
    split at h
    · simp at h
    · split at h
      · split at h
        · next heq => exact (jump_err heq).2
        · cases h
      · cases h
  case jlz =>
    refine ⟨Or.inr (Or.inr (Or.inr rfl)), ?_⟩
    split at h
    · simp at h
    · split at h
      · split at h
        · next heq => exact (jump_err heq).2
        · cases h
      · cases h
  all_goals (repeat' split at h) <;> simp_all

theorem step_undef {p : Program} {st : VMState}
    (h : step p st = .error .undefinedLabel) :
    ∃ cmd, p.get_command st.pc = .ok cmd ∧
      (cmd.ins = Instruction.call ∨ cmd.ins = Instruction.jump ∨
        cmd.ins = Instruction.jz ∨ cmd.ins = Instruction.jlz) ∧
      p.labels.lookup cmd.label = none := by
  rw [step] at h
  split at h
  · next heq =>
    have he := Except.error.inj h
    subst he
    cases get_command_err heq
  · next cmd heq => exact ⟨cmd, heq, (execCmd_undef h).1, (execCmd_undef h).2⟩

theorem int2_err {bits : List Symb} {e : Err} (h : int2 bits = .error e) :
    e = .valueError := by
  rw [int2] at h
  split at h
  · exact (Except.error.inj h).symm
  · split at h
    · exact (Except.error.inj h).symm
    · cases h

theorem consume_any_err {code : List Symb} {choices : List (List Symb)} {offset : ℕ}
    {e : Err} (h : consume_any code choices offset = .error e) :
    e = .consumeEmpty ∨ e = .maxEmpty ∨ e = .noMatch := by
  simp only [consume_any] at h
  repeat' split at h
  all_goals
    first
    | exact Or.inl (Except.error.inj h).symm
    | exact Or.inr (Or.inl (Except.error.inj h).symm)
    | exact Or.inr (Or.inr (Except.error.inj h).symm)
    | cases h

theorem consume_number_err {code : List Symb} {offset : ℕ} {e : Err}
    (h : consume_number code offset = .error e) :
    e = .emptyNumber ∨ e = .indexFault ∨ e = .keyFault ∨ e = .valueError := by
  simp only [consume_number] at h
  repeat' split at h
  all_goals
    first
    | exact Or.inl (Except.error.inj h).symm
    | exact Or.inr (Or.inl (Except.error.inj h).symm)
    | exact Or.inr (Or.inr (Or.inl (Except.error.inj h).symm))
    | (rename_i e2 heq
       have he : e2 = e := Except.error.inj h
       subst he
       exact Or.inr (Or.inr (Or.inr (int2_err heq))))
    | cases h

theorem mkCommand_err {ins : Instruction} {number : Option ℤ} {label : Option (List Symb)}
    {e : Err} (h : mkCommand ins number label = .error e) : e = .payloadMismatch := by
  rw [mkCommand] at h
  split at h
  · exact (Except.error.inj h).symm
  · cases h

theorem add_command_err {p : Program} {cmd : Command} {e : Err}
    (h : p.add_command cmd = .error e) : e = .duplicateLabel := by
  rw [Program.add_command] at h
  split at h
  · split at h
    · exact (Except.error.inj h).symm
    · cases h
  · cases h

theorem parseAux_no_undef (code : List Symb) :
    ∀ (fuel pos : ℕ) (prog : Program),
      parseAux code fuel pos prog ≠ .error .undefinedLabel := by
  intro fuel
  induction fuel with
  | zero => intro pos prog h; simp [parseAux] at h
  | succ n ih =>
    intro pos prog h
    rw [parseAux] at h
    repeat' split at h
    all_goals
      first
      | exact ih _ _ h
      | (rename_i heq
         rcases consume_any_err heq with h2 | h2 | h2 <;> exact absurd h2 (by decide))
      | (rename_i heq
         rcases consume_number_err heq with h2 | h2 | h2 | h2 <;> exact absurd h2 (by decide))
      | (rename_i heq
         exact absurd (mkCommand_err heq) (by decide))
      | (rename_i heq
         exact absurd (add_command_err heq) (by decide))
      | (rename_i e2 heq
         have he : e2 = .undefinedLabel := Except.error.inj h
         subst he
         first
         | (rcases consume_any_err heq with h2 | h2 | h2 <;> exact absurd h2 (by decide))
         | (rcases consume_number_err heq with h2 | h2 | h2 | h2 <;>
             exact absurd h2 (by decide))
         | exact absurd (mkCommand_err heq) (by decide)
         | exact absurd (add_command_err heq) (by decide))
      | cases Except.error.inj h
      | cases h

/-- Claim C7: a `call` or `jump` to a label absent from the label table
fails with the undefined-label error exactly when that command is
executed: executing such a command faults; any run that ends in the
undefined-label error reached (after some continuing steps) a
`call`/`jump`/`jz`/`jlz` command whose label is missing, so a run that
never reaches one cannot fail for this reason; and `parse` (build time)
never produces the undefined-label error. -/
theorem C7_undefined_label_lazy (p : Program) (st : VMState) :
    (∀ (cmd : Command) (l : List Symb), p.get_command st.pc = .ok cmd →
      (cmd.ins = Instruction.call ∨ cmd.ins = Instruction.jump) →
      cmd.label = some l → p.labels.lookup (some l) = none →
      step p st = .error .undefinedLabel) ∧
    (∀ fuel : ℕ, runFuel p fuel st = .error .undefinedLabel →
      ∃ k st₀ cmd, stepN p k st = some st₀ ∧ p.get_command st₀.pc = .ok cmd ∧
        (cmd.ins = Instruction.call ∨ cmd.ins = Instruction.jump ∨
          cmd.ins = Instruction.jz ∨ cmd.ins = Instruction.jlz) ∧
        p.labels.lookup cmd.label = none) ∧
    (∀ code : List Symb, parse code ≠ .error .undefinedLabel) := by
  refine ⟨?_, ?_, ?_⟩
  · intro cmd l hget hins hlab hlook
    rw [step, hget]
    rcases hins with h | h <;>
      simp [execCmd, h, hlab, Program.jump, hlook]
  · intro fuel h
    obtain ⟨k, st₀, h1, h2⟩ := runFuel_err_decomp h
    obtain ⟨cmd, h3, h4, h5⟩ := step_undef h2
    exact ⟨k, st₀, cmd, h1, h3, h4, h5⟩
  · intro code
    exact parseAux_no_undef code _ _ _

/-- Witness for C7 at a concrete program: a single unconditional jump to
the (never defined) empty label faults with the undefined-label error
when stepped and when run, and parsing the empty program does not
produce that error. -/
theorem C7_witness :
    step ⟨[⟨Instruction.jump, none, some []⟩], []⟩ (initState []) =
      .error .undefinedLabel ∧
    (∃ k st₀ cmd,
      stepN ⟨[⟨Instruction.jump, none, some []⟩], []⟩ k (initState []) = some st₀ ∧
      Program.get_command ⟨[⟨Instruction.jump, none, some []⟩], []⟩ st₀.pc = .ok cmd ∧
      (cmd.ins = Instruction.call ∨ cmd.ins = Instruction.jump ∨
        cmd.ins = Instruction.jz ∨ cmd.ins = Instruction.jlz) ∧
      (⟨[⟨Instruction.jump, none, some []⟩], []⟩ : Program).labels.lookup cmd.label =
        none) ∧
    parse [] ≠ .error .undefinedLabel := by
  refine ⟨?_, ?_, ?_⟩
  · exact (C7_undefined_label_lazy ⟨[⟨Instruction.jump, none, some []⟩], []⟩
      (initState [])).1 ⟨Instruction.jump, none, some []⟩ [] (by rfl) (Or.inr rfl) rfl
      (by rfl)
  · exact (C7_undefined_label_lazy ⟨[⟨Instruction.jump, none, some []⟩], []⟩
      (initState [])).2.1 1 (by rfl)
  · exact (C7_undefined_label_lazy ⟨[], []⟩ (initState [])).2.2 []
